import Mathlib

/-!
Shallow embedding of the HotStuff consensus core (src/consensus.cpp) and of
the message-handling / block-delivery layer (src/hotstuff.cpp), together with
theorems settling the specification claims about them.

Blocks live in a content-addressed store (EntityStorage canonicalizes blocks
by hash), so pointer equality in the C++ source corresponds to hash equality
here.  Machine integers are modelled as Nat (no arithmetic in the embedded
code can overflow the 64-bit counters involved).  C++ `throw` is modelled as
`Except.error`.
-/

namespace HotStuff

abbrev Hash := Nat

abbrev ReplicaID := Nat

/-- Quorum certificate: the hash it attests to, the accumulated partial
certificates (voter, part), and whether `compute` has been called. -/
structure QCert where
  obj_hash : Hash
  parts : List (ReplicaID × Nat)
  computed : Bool
deriving Repr, DecidableEq

/-- A block as read and mutated by consensus.cpp.  `parent_hashes` index 0 is
the primary parent; `qc_ref` is the resolved hash of the block the carried
`qc` attests to (set at deliver time, absent when `qc` is absent). -/
structure Block where
  parent_hashes : List Hash
  cmds : List Hash
  qc : Option QCert
  qc_ref : Option Hash
  height : Nat
  self_qc : Option QCert
  voted : List ReplicaID
  decision : Bool
  delivered : Bool
deriving Repr, DecidableEq

abbrev Store := List (Hash × Block)

def findBlk : Store → Hash → Option Block
  | [], _ => none
  | (k, b) :: rest, h => if k = h then some b else findBlk rest h

def setBlk : Store → Hash → Block → Store
  | [], _, _ => []
  | (k, b) :: rest, h, nb => (k, if k = h then nb else b) :: setBlk rest h nb

/-- The Finality record built in update: Finality(id, 1, idx, blk->height,
cmd, blk->get_hash()). -/
structure Finality where
  rid : ReplicaID
  decision : Nat
  cmd_idx : Nat
  cmd_height : Nat
  cmd_hash : Hash
  blk_hash : Hash
deriving Repr, DecidableEq

/-- Observable side effects of the core: hqc_update observers, qc_finish
observers, do_decide (Finality delivery), and do_vote (dest, voter, block). -/
inductive Event where
  | hqcUpdate : Event
  | qcFinish : Hash → Event
  | decide : Finality → Event
  | vote : ReplicaID → ReplicaID → Hash → Event
deriving Repr, DecidableEq

/-- The mutable per-replica state of HotStuffCore. -/
structure CoreState where
  blocks : Store
  bexec : Hash
  vheight : Nat
  hqc_blk : Hash
  hqc_qc : QCert
  nmajority : Nat
  neg_vote : Bool
  rid : ReplicaID
deriving Repr, DecidableEq

def heightOf (bs : Store) (h : Hash) : Nat :=
  (findBlk bs h).elim 0 (fun b => b.height)

def hqcHeight (s : CoreState) : Nat := heightOf s.blocks s.hqc_blk

/-- update_hqc (consensus.cpp:85-91): replace hqc and fire the observer when
the new block is strictly higher. -/
def update_hqc (s : CoreState) (nh : Hash) (qc : Option QCert) :
    Except String (CoreState × List Event) :=
  match findBlk s.blocks nh, findBlk s.blocks s.hqc_blk with
  | some nblk, some hb =>
    if hb.height < nblk.height then
      match qc with
      | some q => .ok ({ s with hqc_blk := nh, hqc_qc := q }, [Event.hqcUpdate])
      | none => .error "null qc"
    else .ok (s, [])
  | _, _ => .error "missing block"

/-- The primary-parent walk of consensus.cpp:109: from `bh` while the height
exceeds `hstop`, pushing each visited block; the fuel argument makes the
recursion total (the C++ loop does not terminate on a malformed chain). -/
def chainWalk (bs : Store) (hstop : Nat) : Nat → Hash → Except String (List Hash × Hash)
  | 0, _ => .error "walk out of fuel"
  | fuel + 1, bh =>
    match findBlk bs bh with
    | none => .error "missing block"
    | some b =>
      if hstop < b.height then
        match b.parent_hashes with
        | [] => .error "missing parent"
        | ph :: _ =>
          match chainWalk bs hstop fuel ph with
          | .error e => .error e
          | .ok (queue, last) => .ok (bh :: queue, last)
      else .ok ([], bh)

/-- The Finality events emitted for one committed block (consensus.cpp:122-125).
The source declares `size_t idx = 0` and never increments it, so every
Finality carries cmd_idx 0. -/
def finalitiesOf (bs : Store) (rid : ReplicaID) (bh : Hash) : List Event :=
  match findBlk bs bh with
  | none => []
  | some blk => blk.cmds.map (fun c =>
      Event.decide { rid := rid, decision := 1, cmd_idx := 0,
                     cmd_height := blk.height, cmd_hash := c, blk_hash := bh })

/-- One iteration of the commit replay loop: mark `decision` and emit the
Finality events of the block. -/
def commitBlk (s : CoreState) (bh : Hash) : Except String (CoreState × List Event) :=
  match findBlk s.blocks bh with
  | none => .error "missing block"
  | some blk =>
    .ok ({ s with blocks := setBlk s.blocks bh { blk with decision := true } },
         finalitiesOf s.blocks s.rid bh)

def commitAll (s : CoreState) : List Hash → Except String (CoreState × List Event)
  | [] => .ok (s, [])
  | bh :: rest =>
    match commitBlk s bh with
    | .error e => .error e
    | .ok (s1, evs1) =>
      match commitAll s1 rest with
      | .error e => .error e
      | .ok (s2, evs2) => .ok (s2, evs1 ++ evs2)

/-- update (consensus.cpp:93-128): the commit kernel. -/
def update (s : CoreState) (nh : Hash) : Except String (CoreState × List Event) :=
  match findBlk s.blocks nh with
  | none => .error "missing block"
  | some nblk =>
    match nblk.qc_ref with
    | none => .error "empty qc_ref"
    | some blkh =>
      match update_hqc s blkh nblk.qc with
      | .error e => .error e
      | .ok (s1, evs1) =>
        match findBlk s1.blocks blkh with
        | none => .error "missing block"
        | some blk =>
          match blk.qc_ref with
          | none => .ok (s1, evs1)
          | some blkqc =>
            if blk.decision = true then .ok (s1, evs1)
            else
              match blk.parent_hashes with
              | [] => .error "missing parent"
              | ph :: _ =>
                match findBlk s1.blocks ph with
                | none => .error "missing block"
                | some p =>
                  if p.decision = true then .ok (s1, evs1)
                  else if ph = blkqc then
                    match findBlk s1.blocks s1.bexec with
                    | none => .error "missing block"
                    | some bx =>
                      match chainWalk s1.blocks bx.height (p.height + 1) ph with
                      | .error e => .error e
                      | .ok (queue, last) =>
                        if last = s1.bexec then
                          match commitAll s1 queue.reverse with
                          | .error e => .error e
                          | .ok (s2, evs2) =>
                            .ok ({ s2 with bexec := ph }, evs1 ++ evs2)
                        else .error "safety breached"
                  else .ok (s1, evs1)

/-- The voting check of on_receive_proposal (consensus.cpp:176-189): opinion
is true when the block is above vheight and its ancestor at hqc height is the
hqc block; in that case vheight is raised. -/
def proposal_opinion (s1 : CoreState) (bnewh : Hash) (bnew : Block) :
    Except String (Bool × CoreState) :=
  if s1.vheight < bnew.height then
    match findBlk s1.blocks s1.hqc_blk with
    | none => .error "missing block"
    | some prefB =>
      match chainWalk s1.blocks prefB.height (bnew.height + 1) bnewh with
      | .error e => .error e
      | .ok (_, last) =>
        if last = s1.hqc_blk then .ok (true, { s1 with vheight := bnew.height })
        else .ok (false, s1)
  else .ok (false, s1)

/-- on_receive_proposal (consensus.cpp:171-198). -/
def on_receive_proposal (s : CoreState) (proposer : ReplicaID) (bnewh : Hash) :
    Except String (CoreState × List Event) :=
  match findBlk s.blocks bnewh with
  | none => .error "block not delivered"
  | some bnew =>
    if bnew.delivered = true then
      match update s bnewh with
      | .error e => .error e
      | .ok (s1, evs1) =>
        match proposal_opinion s1 bnewh bnew with
        | .error e => .error e
        | .ok (opinion, s2) =>
          let evsQ : List Event :=
            match bnew.qc_ref with
            | some r => [Event.qcFinish r]
            | none => []
          let evsV : List Event :=
            if opinion = true ∧ s2.neg_vote = false then
              [Event.vote proposer s2.rid bnewh]
            else []
          .ok (s2, evs1 ++ evsQ ++ evsV)
    else .error "block not delivered"

/-- create_quorum_cert(hash): a fresh, empty certificate over the hash. -/
def create_quorum_cert (h : Hash) : QCert :=
  { obj_hash := h, parts := [], computed := false }

/-- qc->add_part(voter, part). -/
def add_part (qc : QCert) (voter : ReplicaID) (part : Nat) : QCert :=
  { qc with parts := qc.parts ++ [(voter, part)] }

/-- qc->compute(). -/
def computeQC (qc : QCert) : QCert := { qc with computed := true }

/-- The block after on_receive_vote has inserted `voter` into voted and
stored `qc` as self_qc. -/
def withVote (blk : Block) (voter : ReplicaID) (qc : QCert) : Block :=
  { blk with voted := blk.voted ++ [voter], self_qc := some qc }

/-- The state after on_receive_vote has updated the voted block. -/
def insertVoteState (s : CoreState) (bh : Hash) (blk : Block)
    (voter : ReplicaID) (qc : QCert) : CoreState :=
  { s with blocks := setBlk s.blocks bh (withVote blk voter qc) }

/-- on_receive_vote (consensus.cpp:200-225). -/
def on_receive_vote (s : CoreState) (voter : ReplicaID) (bh : Hash) (cert : Nat) :
    Except String (CoreState × List Event) :=
  match findBlk s.blocks bh with
  | none => .error "block not delivered"
  | some blk =>
    if blk.delivered = true then
      if s.nmajority ≤ blk.voted.length then .ok (s, [])
      else if voter ∈ blk.voted then .ok (s, [])
      else if blk.voted.length + 1 = s.nmajority then
        Except.map (fun r => (r.1, Event.qcFinish bh :: r.2))
          (update_hqc
            (insertVoteState s bh blk voter
              (computeQC (add_part (blk.self_qc.getD (create_quorum_cert bh)) voter cert)))
            bh
            (some (computeQC (add_part (blk.self_qc.getD (create_quorum_cert bh)) voter cert))))
      else
        .ok (insertVoteState s bh blk voter
              (add_part (blk.self_qc.getD (create_quorum_cert bh)) voter cert), [])
    else .error "block not delivered"

/-- One successful state transition of the embedded core operations. -/
inductive CoreStep : CoreState → CoreState → Prop where
  | hqc : ∀ s nh qc s' evs, update_hqc s nh qc = .ok (s', evs) → CoreStep s s'
  | upd : ∀ s nh s' evs, update s nh = .ok (s', evs) → CoreStep s s'
  | recvProp : ∀ s pr bh s' evs,
      on_receive_proposal s pr bh = .ok (s', evs) → CoreStep s s'
  | recvVote : ∀ s v bh c s' evs,
      on_receive_vote s v bh c = .ok (s', evs) → CoreStep s s'

/-- The steps a message handler performs or schedules (hotstuff.cpp handlers):
body parse, async_deliver_blk on a referenced block, signature verification,
and forwarding into the consensus core on success. -/
inductive HAct where
  | parse : HAct
  | deliver : Hash → HAct
  | verifySig : HAct
  | core : HAct
deriving Repr, DecidableEq

/-- propose_handler (hotstuff.cpp:229-240).  The source performs no null-peer
check here: the peer argument is read only as the fetch source, so the
handler's behaviour does not depend on `peer_null`. -/
def propose_handler (peer_null : Bool) (parsed_blk : Option Hash) : List HAct :=
  match parsed_blk with
  | none => [HAct.parse]
  | some bh => [HAct.parse, HAct.deliver bh, HAct.core]

/-- vote_handler (hotstuff.cpp:242-256); no null-peer check in the source. -/
def vote_handler (peer_null : Bool) (vote_blk : Hash) : List HAct :=
  [HAct.parse, HAct.deliver vote_blk, HAct.verifySig, HAct.core]

/-- status_handler (hotstuff.cpp:284-298). -/
def status_handler (peer_null : Bool) (hqc_blk_hash : Hash) : List HAct :=
  if peer_null then []
  else [HAct.parse, HAct.deliver hqc_blk_hash, HAct.verifySig, HAct.core]

/-- notify_handler (hotstuff.cpp:267-282). -/
def notify_handler (peer_null : Bool) (blk_hash : Hash) : List HAct :=
  if peer_null then []
  else [HAct.parse, HAct.deliver blk_hash, HAct.verifySig, HAct.core]

/-- blame_handler (hotstuff.cpp:300-311); verifies then forwards, no block
delivery. -/
def blame_handler (peer_null : Bool) : List HAct :=
  if peer_null then [] else [HAct.parse, HAct.verifySig, HAct.core]

/-- blamenotify_handler (hotstuff.cpp:313-328). -/
def blamenotify_handler (peer_null : Bool) (hqc_hash : Hash) : List HAct :=
  if peer_null then []
  else [HAct.parse, HAct.deliver hqc_hash, HAct.verifySig, HAct.core]

/-- new_view_handler (hotstuff.cpp:330-345). -/
def new_view_handler (peer_null : Bool) (hqc_blk_hash : Hash) : List HAct :=
  if peer_null then []
  else [HAct.parse, HAct.deliver hqc_blk_hash, HAct.verifySig, HAct.core]

/-- The peer list built by HotStuffBase::start (hotstuff.cpp:576-585): every
registered replica address except the local listen address. -/
def start_peers (replica_addrs : List Nat) (listen_addr : Nat) : List Nat :=
  replica_addrs.filter (fun a => a ≠ listen_addr)

/-- nfaulty as computed in HotStuffBase::start (hotstuff.cpp:588). -/
def start_nfaulty (replica_addrs : List Nat) (listen_addr : Nat) : Nat :=
  (start_peers replica_addrs listen_addr).length / 2

/-- nmajority as set by HotStuffCore::on_init (consensus.cpp:228). -/
def on_init_nmajority (nfaulty : Nat) : Nat := 2 * nfaulty + 1

/-- The sub-promises collected by async_deliver_blk once the block is fetched
(hotstuff.cpp:211-222): fetch the QC-referenced block when a QC is present,
deliver every parent, and verify signatures unless the block is genesis. -/
inductive DTask where
  | fetchQCRef : Hash → DTask
  | deliverParent : Hash → DTask
  | verify : DTask
deriving Repr, DecidableEq

def async_deliver_subtasks (genesis : Hash) (blk_hash : Hash) (blk : Block) :
    List DTask :=
  (match blk.qc with
   | some q => [DTask.fetchQCRef q.obj_hash]
   | none => []) ++
  blk.parent_hashes.map DTask.deliverParent ++
  (if blk_hash = genesis then [] else [DTask.verify])

/-! ### Concrete states used to evaluate the operations -/

/-- A genesis-like block as built by on_init: self-referential QC, already
delivered and decided. -/
def gQC : QCert := { obj_hash := 0, parts := [], computed := true }

def gBlk : Block :=
  { parent_hashes := [], cmds := [], qc := some gQC, qc_ref := some 0,
    height := 0, self_qc := some gQC, voted := [0, 1, 2, 3], decision := true,
    delivered := true }

/-- b1: child of genesis carrying two commands. -/
def b1C : Block :=
  { parent_hashes := [0], cmds := [10, 11], qc := some gQC, qc_ref := some 0,
    height := 1, self_qc := none, voted := [], decision := false,
    delivered := true }

/-- b2: child of b1 whose QC references b1 (its direct parent). -/
def b2C : Block :=
  { parent_hashes := [1], cmds := [12], qc := some { obj_hash := 1, parts := [], computed := true },
    qc_ref := some 1, height := 2, self_qc := none, voted := [], decision := false,
    delivered := true }

/-- b3: child of b2 whose QC references b2 (its direct parent). -/
def b3C : Block :=
  { parent_hashes := [2], cmds := [], qc := some { obj_hash := 2, parts := [], computed := true },
    qc_ref := some 2, height := 3, self_qc := none, voted := [], decision := false,
    delivered := true }

/-- State in which delivering b3 commits b1 (three-chain at b2). -/
def exC7 : CoreState :=
  { blocks := [(0, gBlk), (1, b1C), (2, b2C), (3, b3C)], bexec := 0,
    vheight := 0, hqc_blk := 0, hqc_qc := gQC, nmajority := 3,
    neg_vote := false, rid := 9 }

/-- A delivered block that carries no QC (qc and qc_ref absent). -/
def noqcBlk : Block :=
  { parent_hashes := [0], cmds := [], qc := none, qc_ref := none, height := 1,
    self_qc := none, voted := [], decision := false, delivered := true }

def exC3 : CoreState :=
  { blocks := [(0, gBlk), (5, noqcBlk)], bexec := 0, vheight := 0,
    hqc_blk := 0, hqc_qc := gQC, nmajority := 3, neg_vote := false, rid := 0 }

/-- A proposed block extending the hqc (genesis) branch. -/
def pBlk : Block :=
  { parent_hashes := [0], cmds := [42], qc := some gQC, qc_ref := some 0,
    height := 1, self_qc := none, voted := [], decision := false,
    delivered := true }

def exC2 : CoreState :=
  { blocks := [(0, gBlk), (1, pBlk)], bexec := 0, vheight := 0, hqc_blk := 0,
    hqc_qc := gQC, nmajority := 3, neg_vote := false, rid := 7 }

/-- A block proposed by this replica with two of three votes collected. -/
def vBlk : Block :=
  { parent_hashes := [0], cmds := [], qc := none, qc_ref := none, height := 1,
    self_qc := some { obj_hash := 7, parts := [(1, 5), (2, 6)], computed := false },
    voted := [1, 2], decision := false, delivered := true }

def exC4 : CoreState :=
  { blocks := [(7, vBlk)], bexec := 7, vheight := 0, hqc_blk := 7,
    hqc_qc := gQC, nmajority := 3, neg_vote := false, rid := 0 }

/-- A delivered block with no self_qc (not proposed by this replica). -/
def nqBlk : Block :=
  { parent_hashes := [0], cmds := [], qc := none, qc_ref := none, height := 1,
    self_qc := none, voted := [], decision := false, delivered := true }

def exC5 : CoreState :=
  { blocks := [(7, nqBlk)], bexec := 7, vheight := 0, hqc_blk := 7,
    hqc_qc := gQC, nmajority := 3, neg_vote := false, rid := 0 }

/-! ### Store lemmas -/

theorem findBlk_setBlk (bs : Store) (h : Hash) (nb : Block) (h' : Hash) :
    findBlk (setBlk bs h nb) h' =
      (findBlk bs h').map (fun b => if h' = h then nb else b) := by
  induction bs with
  | nil => rfl
  | cons kv rest ih =>
    obtain ⟨k, b⟩ := kv
    by_cases hk' : k = h'
    · subst hk'
      simp [findBlk, setBlk]
    · simp [findBlk, setBlk, hk', ih]

theorem findBlk_setBlk_some (bs : Store) (h : Hash) (nb : Block) (h' : Hash)
    (b : Block) (hf : findBlk bs h' = some b) :
    ∃ b', findBlk (setBlk bs h nb) h' = some b' := by
  rw [findBlk_setBlk, hf]
  exact ⟨_, rfl⟩

theorem findBlk_setBlk_decision_true (bs : Store) (h : Hash) (nb : Block)
    (hnb : nb.decision = true) (h' : Hash) (b : Block)
    (hf : findBlk bs h' = some b) (hb : b.decision = true) :
    ∃ b', findBlk (setBlk bs h nb) h' = some b' ∧ b'.decision = true := by
  rw [findBlk_setBlk, hf]
  by_cases he : h' = h
  · exact ⟨nb, by simp [he], hnb⟩
  · exact ⟨b, by simp [he], hb⟩

theorem heightOf_setBlk (bs : Store) (h : Hash) (nb blk : Block) (h' : Hash)
    (hf : findBlk bs h = some blk) (hh : nb.height = blk.height) :
    heightOf (setBlk bs h nb) h' = heightOf bs h' := by
  unfold heightOf
  rw [findBlk_setBlk]
  cases hfd : findBlk bs h' with
  | none => rfl
  | some b =>
    by_cases he : h' = h
    · subst he
      rw [hf] at hfd
      cases hfd
      simp [hh]
    · simp [he]

theorem finalitiesOf_setBlk (bs : Store) (h : Hash) (nb blk : Block)
    (r : ReplicaID) (hf : findBlk bs h = some blk) (hc : nb.cmds = blk.cmds)
    (hh : nb.height = blk.height) (h' : Hash) :
    finalitiesOf (setBlk bs h nb) r h' = finalitiesOf bs r h' := by
  unfold finalitiesOf
  rw [findBlk_setBlk]
  cases hfd : findBlk bs h' with
  | none => rfl
  | some b =>
    by_cases he : h' = h
    · subst he
      rw [hf] at hfd
      cases hfd
      simp [hc, hh]
    · simp [he]

/-! ### update_hqc invariants -/

theorem update_hqc_ok_inv (s : CoreState) (nh : Hash) (qc : Option QCert)
    (s' : CoreState) (evs : List Event)
    (h : update_hqc s nh qc = .ok (s', evs)) :
    s'.blocks = s.blocks ∧ s'.bexec = s.bexec ∧ s'.vheight = s.vheight ∧
    s'.nmajority = s.nmajority ∧ s'.neg_vote = s.neg_vote ∧ s'.rid = s.rid ∧
    (evs = [] ∨ evs = [Event.hqcUpdate]) ∧ hqcHeight s ≤ hqcHeight s' := by
  unfold update_hqc at h
  split at h
  · rename_i nblk hb h1 h2
    split at h
    · rename_i hlt
      split at h
      · rename_i q hq
        simp only [Except.ok.injEq, Prod.mk.injEq] at h
        obtain ⟨hs, he⟩ := h
        subst hs
        subst he
        refine ⟨rfl, rfl, rfl, rfl, rfl, rfl, Or.inr rfl, ?_⟩
        show heightOf s.blocks s.hqc_blk ≤ heightOf s.blocks nh
        unfold heightOf
        rw [h1, h2]
        simpa using Nat.le_of_lt hlt
      · exact Except.noConfusion h
    · simp only [Except.ok.injEq, Prod.mk.injEq] at h
      obtain ⟨hs, he⟩ := h
      subst hs
      subst he
      exact ⟨rfl, rfl, rfl, rfl, rfl, rfl, Or.inl rfl, Nat.le_refl _⟩
  · exact Except.noConfusion h

/-! ### Commit replay invariants -/

theorem commitBlk_ok_char (s : CoreState) (bh : Hash) (blk : Block)
    (hf : findBlk s.blocks bh = some blk) :
    commitBlk s bh =
      .ok ({ s with blocks := setBlk s.blocks bh { blk with decision := true } },
           finalitiesOf s.blocks s.rid bh) := by
  unfold commitBlk
  rw [hf]

theorem commitBlk_ok_inv (s : CoreState) (bh : Hash) (s' : CoreState)
    (evs : List Event) (h : commitBlk s bh = .ok (s', evs)) :
    s'.bexec = s.bexec ∧ s'.vheight = s.vheight ∧ s'.hqc_blk = s.hqc_blk ∧
    s'.nmajority = s.nmajority ∧ s'.neg_vote = s.neg_vote ∧ s'.rid = s.rid ∧
    (∀ h', heightOf s'.blocks h' = heightOf s.blocks h') ∧
    (∀ r h', finalitiesOf s'.blocks r h' = finalitiesOf s.blocks r h') ∧
    (∀ h' b, findBlk s.blocks h' = some b → ∃ b', findBlk s'.blocks h' = some b') ∧
    (∀ h' b, findBlk s.blocks h' = some b → b.decision = true →
       ∃ b', findBlk s'.blocks h' = some b' ∧ b'.decision = true) ∧
    (∀ e ∈ evs, ∃ f, e = Event.decide f) := by
  unfold commitBlk at h
  split at h
  case h_1 => exact Except.noConfusion h
  case h_2 blk hf =>
    simp only [Except.ok.injEq, Prod.mk.injEq] at h
    obtain ⟨hs, he⟩ := h
    subst hs
    subst he
    refine ⟨rfl, rfl, rfl, rfl, rfl, rfl, ?_, ?_, ?_, ?_, ?_⟩
    · intro h'
      exact heightOf_setBlk _ _ _ _ _ hf rfl
    · intro r h'
      exact finalitiesOf_setBlk s.blocks bh { blk with decision := true } blk r hf rfl rfl h'
    · intro h' b hb
      exact findBlk_setBlk_some _ _ _ _ _ hb
    · intro h' b hb hbd
      exact findBlk_setBlk_decision_true _ _ _ rfl _ _ hb hbd
    · intro e he
      unfold finalitiesOf at he
      rw [hf] at he
      obtain ⟨c, -, rfl⟩ := List.mem_map.mp he
      exact ⟨_, rfl⟩

theorem commitAll_ok_inv (l : List Hash) (s s' : CoreState) (evs : List Event)
    (h : commitAll s l = .ok (s', evs)) :
    s'.bexec = s.bexec ∧ s'.vheight = s.vheight ∧ s'.hqc_blk = s.hqc_blk ∧
    s'.nmajority = s.nmajority ∧ s'.neg_vote = s.neg_vote ∧ s'.rid = s.rid ∧
    (∀ h', heightOf s'.blocks h' = heightOf s.blocks h') ∧
    (∀ h' b, findBlk s.blocks h' = some b → b.decision = true →
       ∃ b', findBlk s'.blocks h' = some b' ∧ b'.decision = true) ∧
    (∀ e ∈ evs, ∃ f, e = Event.decide f) := by
  induction l generalizing s evs with
  | nil =>
    unfold commitAll at h
    simp only [Except.ok.injEq, Prod.mk.injEq] at h
    obtain ⟨hs, he⟩ := h
    subst hs
    subst he
    exact ⟨rfl, rfl, rfl, rfl, rfl, rfl, fun _ => rfl,
           fun h' b hb hd => ⟨b, hb, hd⟩, by simp⟩
  | cons bh rest ih =>
    unfold commitAll at h
    split at h
    case h_1 => exact Except.noConfusion h
    case h_2 s1 evs1 hcb =>
      split at h
      case h_1 => exact Except.noConfusion h
      case h_2 s2 evs2 hca =>
        simp only [Except.ok.injEq, Prod.mk.injEq] at h
        obtain ⟨hs, he⟩ := h
        subst hs
        subst he
        obtain ⟨b1, b2, b3, b4, b5, b6, bht, bfin, bsome, bdec, bev⟩ :=
          commitBlk_ok_inv s bh s1 evs1 hcb
        obtain ⟨c1, c2, c3, c4, c5, c6, cht, cdec, cev⟩ := ih s1 evs2 hca
        refine ⟨c1.trans b1, c2.trans b2, c3.trans b3, c4.trans b4,
                c5.trans b5, c6.trans b6, ?_, ?_, ?_⟩
        · intro h'
          exact (cht h').trans (bht h')
        · intro h' b hb hd
          obtain ⟨b', hb', hd'⟩ := bdec h' b hb hd
          exact cdec h' b' hb' hd'
        · intro e he
          rcases List.mem_append.mp he with hm | hm
          · exact bev e hm
          · exact cev e hm

theorem commitAll_ok_exists (l : List Hash) (s : CoreState)
    (hall : ∀ h ∈ l, ∃ b, findBlk s.blocks h = some b) :
    ∃ s2 evs2, commitAll s l = .ok (s2, evs2) ∧
      evs2 = l.flatMap (finalitiesOf s.blocks s.rid) ∧
      (∀ h ∈ l, ∃ b, findBlk s2.blocks h = some b ∧ b.decision = true) := by
  induction l generalizing s with
  | nil => exact ⟨s, [], rfl, by simp, by simp⟩
  | cons bh rest ih =>
    obtain ⟨blk, hblk⟩ := hall bh (by simp)
    have hchar := commitBlk_ok_char s bh blk hblk
    have hall1 : ∀ h ∈ rest,
        ∃ b, findBlk (setBlk s.blocks bh { blk with decision := true }) h = some b := by
      intro h hm
      obtain ⟨b, hb⟩ := hall h (by simp [hm])
      exact findBlk_setBlk_some _ _ _ _ _ hb
    obtain ⟨s2, evs2, hca, hevs, hdec⟩ :=
      ih { s with blocks := setBlk s.blocks bh { blk with decision := true } } hall1
    refine ⟨s2, finalitiesOf s.blocks s.rid bh ++ evs2, ?_, ?_, ?_⟩
    · unfold commitAll
      simp only [hchar, hca]
    · have hfo : ∀ h', finalitiesOf (setBlk s.blocks bh { blk with decision := true })
          s.rid h' = finalitiesOf s.blocks s.rid h' :=
        fun h' => finalitiesOf_setBlk s.blocks bh { blk with decision := true } blk
          s.rid hblk rfl rfl h'
      rw [hevs]
      simp only [List.flatMap_cons]
      congr 1
      exact List.flatMap_congr (fun h' _ => hfo h')
    · intro h hm
      rcases List.mem_cons.mp hm with rfl | hm'
      · have hset : findBlk (setBlk s.blocks h { blk with decision := true }) h =
            some { blk with decision := true } := by
          rw [findBlk_setBlk, hblk]
          simp
        obtain ⟨c1, c2, c3, c4, c5, c6, cht, cdec, cev⟩ :=
          commitAll_ok_inv rest _ s2 evs2 hca
        exact cdec h { blk with decision := true } hset rfl
      · exact hdec h hm'

theorem update_hqc_ok_exists (s : CoreState) (nh : Hash) (q : QCert)
    (nblk hb : Block)
    (h1 : findBlk s.blocks nh = some nblk)
    (h2 : findBlk s.blocks s.hqc_blk = some hb) :
    ∃ s' evs, update_hqc s nh (some q) = .ok (s', evs) := by
  unfold update_hqc
  simp only [h1, h2]
  by_cases hlt : hb.height < nblk.height
  · rw [if_pos hlt]
    exact ⟨_, _, rfl⟩
  · rw [if_neg hlt]
    exact ⟨_, _, rfl⟩

theorem chainWalk_mem (bs : Store) (hstop : Nat) (fuel : Nat) (bh : Hash)
    (queue : List Hash) (last : Hash)
    (h : chainWalk bs hstop fuel bh = .ok (queue, last)) :
    ∀ h' ∈ queue, ∃ b, findBlk bs h' = some b := by
  induction fuel generalizing bh queue last with
  | zero =>
    simp only [chainWalk] at h
    exact Except.noConfusion h
  | succ n ih =>
    unfold chainWalk at h
    split at h
    case h_1 => exact Except.noConfusion h
    case h_2 b hf =>
      split at h
      · split at h
        case h_1 => exact Except.noConfusion h
        case h_2 ph t hph =>
          split at h
          case h_1 => exact Except.noConfusion h
          case h_2 q l hcw =>
            simp only [Except.ok.injEq, Prod.mk.injEq] at h
            obtain ⟨hq, hl⟩ := h
            subst hq
            subst hl
            intro h' hm
            rcases List.mem_cons.mp hm with rfl | hm'
            · exact ⟨b, hf⟩
            · exact ih ph q l hcw h' hm'
      · simp only [Except.ok.injEq, Prod.mk.injEq] at h
        obtain ⟨hq, hl⟩ := h
        subst hq
        intro h' hm
        exact absurd hm (List.not_mem_nil h')

/-! ### Proposal and vote invariants -/

theorem proposal_opinion_ok_inv (s1 : CoreState) (bnewh : Hash) (bnew : Block)
    (b : Bool) (s2 : CoreState)
    (h : proposal_opinion s1 bnewh bnew = .ok (b, s2)) :
    s2.blocks = s1.blocks ∧ s2.bexec = s1.bexec ∧ s2.hqc_blk = s1.hqc_blk ∧
    s2.nmajority = s1.nmajority ∧ s2.neg_vote = s1.neg_vote ∧ s2.rid = s1.rid ∧
    (s2.vheight = s1.vheight ∨ s2.vheight = bnew.height) ∧
    (b = true → s2.vheight = bnew.height) := by
  unfold proposal_opinion at h
  split at h
  · split at h
    case h_1 => exact Except.noConfusion h
    case h_2 prefB hp =>
      split at h
      case h_1 => exact Except.noConfusion h
      case h_2 pr q last hw =>
        split at h
        · simp only [Except.ok.injEq, Prod.mk.injEq] at h
          obtain ⟨hb, hs⟩ := h
          subst hb
          subst hs
          exact ⟨rfl, rfl, rfl, rfl, rfl, rfl, Or.inr rfl, fun _ => rfl⟩
        · simp only [Except.ok.injEq, Prod.mk.injEq] at h
          obtain ⟨hb, hs⟩ := h
          subst hb
          subst hs
          exact ⟨rfl, rfl, rfl, rfl, rfl, rfl, Or.inl rfl, fun hc => Bool.noConfusion hc⟩
  · simp only [Except.ok.injEq, Prod.mk.injEq] at h
    obtain ⟨hb, hs⟩ := h
    subst hb
    subst hs
    exact ⟨rfl, rfl, rfl, rfl, rfl, rfl, Or.inl rfl, fun hc => Bool.noConfusion hc⟩

theorem proposal_opinion_char (s1 : CoreState) (bnewh : Hash) (bnew : Block)
    (prefB : Block) (q : List Hash) (last : Hash)
    (hp : findBlk s1.blocks s1.hqc_blk = some prefB)
    (hw : chainWalk s1.blocks prefB.height (bnew.height + 1) bnewh = .ok (q, last)) :
    proposal_opinion s1 bnewh bnew =
      if s1.vheight < bnew.height then
        (if last = s1.hqc_blk then .ok (true, { s1 with vheight := bnew.height })
         else .ok (false, s1))
      else .ok (false, s1) := by
  unfold proposal_opinion
  by_cases hv : s1.vheight < bnew.height
  · simp only [if_pos hv, hp, hw]
  · simp only [if_neg hv]

theorem on_receive_proposal_ok_char (s : CoreState) (proposer : ReplicaID)
    (bnewh : Hash) (bnew : Block) (s1 s2 : CoreState) (evs1 : List Event)
    (b : Bool)
    (hf : findBlk s.blocks bnewh = some bnew)
    (hd : bnew.delivered = true)
    (hu : update s bnewh = .ok (s1, evs1))
    (ho : proposal_opinion s1 bnewh bnew = .ok (b, s2)) :
    on_receive_proposal s proposer bnewh =
      .ok (s2, evs1 ++
        (match bnew.qc_ref with
         | some r => [Event.qcFinish r]
         | none => []) ++
        (if b = true ∧ s2.neg_vote = false then [Event.vote proposer s2.rid bnewh]
         else [])) := by
  unfold on_receive_proposal
  simp only [hf, hd, hu, ho, if_true]

theorem exceptMap_ok_inv {ε α β : Type} (f : α → β) (x : Except ε α) (y : β)
    (h : Except.map f x = .ok y) : ∃ a, x = .ok a ∧ y = f a := by
  cases x with
  | error e => simp [Except.map] at h
  | ok a =>
    simp only [Except.map, Except.ok.injEq] at h
    exact ⟨a, rfl, h.symm⟩

theorem on_receive_vote_full (s : CoreState) (voter : ReplicaID) (bh : Hash)
    (cert : Nat) (blk : Block)
    (hf : findBlk s.blocks bh = some blk) (hd : blk.delivered = true)
    (hge : s.nmajority ≤ blk.voted.length) :
    on_receive_vote s voter bh cert = .ok (s, []) := by
  unfold on_receive_vote
  simp only [hf, hd, if_true]
  rw [if_pos hge]

theorem on_receive_vote_dup (s : CoreState) (voter : ReplicaID) (bh : Hash)
    (cert : Nat) (blk : Block)
    (hf : findBlk s.blocks bh = some blk) (hd : blk.delivered = true)
    (hlt : blk.voted.length < s.nmajority) (hmem : voter ∈ blk.voted) :
    on_receive_vote s voter bh cert = .ok (s, []) := by
  unfold on_receive_vote
  simp only [hf, hd, if_true]
  rw [if_neg (Nat.not_le_of_lt hlt), if_pos hmem]

theorem on_receive_vote_sub (s : CoreState) (voter : ReplicaID) (bh : Hash)
    (cert : Nat) (blk : Block)
    (hf : findBlk s.blocks bh = some blk) (hd : blk.delivered = true)
    (hlt : blk.voted.length < s.nmajority) (hmem : voter ∉ blk.voted)
    (hth : blk.voted.length + 1 ≠ s.nmajority) :
    on_receive_vote s voter bh cert =
      .ok (insertVoteState s bh blk voter
            (add_part (blk.self_qc.getD (create_quorum_cert bh)) voter cert), []) := by
  unfold on_receive_vote
  simp only [hf, hd, if_true]
  rw [if_neg (Nat.not_le_of_lt hlt), if_neg hmem, if_neg hth]

theorem on_receive_vote_thr (s : CoreState) (voter : ReplicaID) (bh : Hash)
    (cert : Nat) (blk : Block)
    (hf : findBlk s.blocks bh = some blk) (hd : blk.delivered = true)
    (hlt : blk.voted.length < s.nmajority) (hmem : voter ∉ blk.voted)
    (hth : blk.voted.length + 1 = s.nmajority) :
    on_receive_vote s voter bh cert =
      Except.map (fun r => (r.1, Event.qcFinish bh :: r.2))
        (update_hqc
          (insertVoteState s bh blk voter
            (computeQC (add_part (blk.self_qc.getD (create_quorum_cert bh)) voter cert)))
          bh
          (some (computeQC (add_part (blk.self_qc.getD (create_quorum_cert bh))
            voter cert)))) := by
  unfold on_receive_vote
  simp only [hf, hd, if_true]
  rw [if_neg (Nat.not_le_of_lt hlt), if_neg hmem, if_pos hth]

theorem hqcHeight_insertVoteState (s : CoreState) (bh : Hash) (blk : Block)
    (voter : ReplicaID) (qc : QCert) (hf : findBlk s.blocks bh = some blk) :
    hqcHeight (insertVoteState s bh blk voter qc) = hqcHeight s := by
  unfold hqcHeight insertVoteState
  exact heightOf_setBlk s.blocks bh _ blk s.hqc_blk hf rfl

theorem on_receive_vote_mono (s : CoreState) (v : ReplicaID) (bh : Hash)
    (c : Nat) (s' : CoreState) (evs : List Event)
    (h : on_receive_vote s v bh c = .ok (s', evs)) :
    hqcHeight s ≤ hqcHeight s' := by
  unfold on_receive_vote at h
  split at h
  case h_1 => exact Except.noConfusion h
  case h_2 blk hf =>
    split at h
    · split at h
      · simp only [Except.ok.injEq, Prod.mk.injEq] at h
        obtain ⟨hs, -⟩ := h
        subst hs
        exact Nat.le_refl _
      · split at h
        · simp only [Except.ok.injEq, Prod.mk.injEq] at h
          obtain ⟨hs, -⟩ := h
          subst hs
          exact Nat.le_refl _
        · split at h
          · obtain ⟨a, hx, hy⟩ := exceptMap_ok_inv _ _ _ h
            obtain ⟨sm, evm⟩ := a
            simp only [Prod.mk.injEq] at hy
            obtain ⟨hs, -⟩ := hy
            subst hs
            obtain ⟨ubl, -, -, -, -, -, -, umono⟩ :=
              update_hqc_ok_inv _ _ _ _ _ hx
            exact Nat.le_trans
              (Nat.le_of_eq (hqcHeight_insertVoteState s bh blk v _ hf).symm) umono
          · simp only [Except.ok.injEq, Prod.mk.injEq] at h
            obtain ⟨hs, -⟩ := h
            subst hs
            exact Nat.le_of_eq (hqcHeight_insertVoteState s bh blk v _ hf).symm
    · exact Except.noConfusion h

/-! ### update invariants -/

theorem update_ok_cases (s : CoreState) (nh : Hash) (s' : CoreState)
    (evs : List Event) (h : update s nh = .ok (s', evs)) :
    ∃ blkh qc s1 evs1, update_hqc s blkh qc = .ok (s1, evs1) ∧
      ((s' = s1 ∧ evs = evs1) ∨
       ∃ queue s2 evs2 ph, commitAll s1 queue = .ok (s2, evs2) ∧
         s' = { s2 with bexec := ph } ∧ evs = evs1 ++ evs2) := by
  unfold update at h
  split at h
  case h_1 => exact Except.noConfusion h
  case h_2 nblk hf =>
    split at h
    case h_1 => exact Except.noConfusion h
    case h_2 blkh hq =>
      split at h
      case h_1 => exact Except.noConfusion h
      case h_2 s1 evs1 hu =>
        refine ⟨blkh, nblk.qc, s1, evs1, hu, ?_⟩
        split at h
        case h_1 => exact Except.noConfusion h
        case h_2 blk hb =>
          split at h
          case h_1 =>
            simp only [Except.ok.injEq, Prod.mk.injEq] at h
            exact Or.inl ⟨h.1.symm, h.2.symm⟩
          case h_2 blkqc hbq =>
            split at h
            · simp only [Except.ok.injEq, Prod.mk.injEq] at h
              exact Or.inl ⟨h.1.symm, h.2.symm⟩
            · split at h
              case h_1 => exact Except.noConfusion h
              case h_2 ph t hph =>
                split at h
                case h_1 => exact Except.noConfusion h
                case h_2 p hp =>
                  split at h
                  · simp only [Except.ok.injEq, Prod.mk.injEq] at h
                    exact Or.inl ⟨h.1.symm, h.2.symm⟩
                  · split at h
                    · split at h
                      case h_1 => exact Except.noConfusion h
                      case h_2 bx hbx =>
                        split at h
                        case h_1 => exact Except.noConfusion h
                        case h_2 queue last hcw =>
                          split at h
                          · split at h
                            case h_1 => exact Except.noConfusion h
                            case h_2 s2 evs2 hca =>
                              simp only [Except.ok.injEq, Prod.mk.injEq] at h
                              exact Or.inr ⟨queue.reverse, s2, evs2, ph, hca,
                                h.1.symm, h.2.symm⟩
                          · exact Except.noConfusion h
                    · simp only [Except.ok.injEq, Prod.mk.injEq] at h
                      exact Or.inl ⟨h.1.symm, h.2.symm⟩

theorem update_ok_master (s : CoreState) (nh : Hash) (s' : CoreState)
    (evs : List Event) (h : update s nh = .ok (s', evs)) :
    s'.vheight = s.vheight ∧ s'.rid = s.rid ∧ s'.nmajority = s.nmajority ∧
    s'.neg_vote = s.neg_vote ∧ hqcHeight s ≤ hqcHeight s' ∧
    (∀ d v hh, Event.vote d v hh ∉ evs) := by
  obtain ⟨blkh, qc, s1, evs1, hu, hrest⟩ := update_ok_cases s nh s' evs h
  obtain ⟨ubl, ube, uvh, unm, ung, urid, uevs, umono⟩ :=
    update_hqc_ok_inv s blkh qc s1 evs1 hu
  have hnv1 : ∀ d v hh, Event.vote d v hh ∉ evs1 := by
    intro d v hh hm
    rcases uevs with rfl | rfl
    · exact List.not_mem_nil _ hm
    · rcases List.mem_singleton.mp hm with hEq
      exact Event.noConfusion hEq
  rcases hrest with ⟨rfl, rfl⟩ | ⟨queue, s2, evs2, ph, hca, rfl, rfl⟩
  · exact ⟨uvh, urid, unm, ung, umono, hnv1⟩
  · obtain ⟨c1, c2, c3, c4, c5, c6, cht, cdec, cev⟩ :=
      commitAll_ok_inv queue s1 s2 evs2 hca
    refine ⟨c2.trans uvh, c6.trans urid, c4.trans unm, c5.trans ung, ?_, ?_⟩
    · have h2 : hqcHeight s2 = hqcHeight s1 := by
        unfold hqcHeight
        rw [c3]
        exact cht s1.hqc_blk
      have h3 : hqcHeight { s2 with bexec := ph } = hqcHeight s2 := rfl
      rw [h3, h2]
      exact umono
    · intro d v hh hm
      rcases List.mem_append.mp hm with hm1 | hm2
      · exact hnv1 d v hh hm1
      · obtain ⟨f, hf⟩ := cev _ hm2
        exact Event.noConfusion hf

theorem on_receive_proposal_mono (s : CoreState) (pr : ReplicaID) (bh : Hash)
    (s' : CoreState) (evs : List Event)
    (h : on_receive_proposal s pr bh = .ok (s', evs)) :
    hqcHeight s ≤ hqcHeight s' := by
  unfold on_receive_proposal at h
  split at h
  case h_1 => exact Except.noConfusion h
  case h_2 bnew hf =>
    split at h
    · split at h
      case h_1 => exact Except.noConfusion h
      case h_2 s1 evs1 hu =>
        split at h
        case h_1 => exact Except.noConfusion h
        case h_2 b s2 ho =>
          simp only [Except.ok.injEq, Prod.mk.injEq] at h
          obtain ⟨hs, -⟩ := h
          subst hs
          have h1 := (update_ok_master s bh s1 evs1 hu).2.2.2.2.1
          obtain ⟨obl, obe, ohq, onm, ong, orid, -, -⟩ :=
            proposal_opinion_ok_inv s1 bh bnew b s2 ho
          have h2 : hqcHeight s2 = hqcHeight s1 := by
            unfold hqcHeight
            rw [ohq, obl]
          rw [h2]
          exact h1
    · exact Except.noConfusion h

/-! ### Claim theorems -/

/-- Claim C3 (counterexample): on a delivered block with no qc_ref, update does
NOT return normally: it raises an error ("empty qc_ref"), contradicting the
claim that it returns without raising an error. -/
theorem update_no_qc_cex : ∃ e, update exC3 5 = Except.error e := ⟨_, rfl⟩

/-- Claim C3 (amended): for every block whose qc_ref is absent, update raises
the "empty qc_ref" error; the error is raised before any mutation, so the
replica state is left unchanged. -/
theorem update_no_qc_throws (s : CoreState) (nh : Hash) (nblk : Block)
    (hf : findBlk s.blocks nh = some nblk) (hq : nblk.qc_ref = none) :
    update s nh = .error "empty qc_ref" := by
  unfold update
  simp only [hf, hq]

/-- Witness for update_no_qc_throws at a concrete state. -/
theorem update_no_qc_throws_witness : update exC3 5 = .error "empty qc_ref" :=
  update_no_qc_throws exC3 5 noqcBlk rfl rfl

/-- Claim C5 (counterexample): a vote for a delivered block whose self_qc is
absent is NOT discarded: the voter is counted in blk.voted and a partial
certificate is accumulated in a freshly created self_qc. -/
theorem vote_no_self_qc_cex :
    ∃ s' b, on_receive_vote exC5 2 7 9 = .ok (s', []) ∧
      findBlk s'.blocks 7 = some b ∧ 2 ∈ b.voted ∧ b.self_qc ≠ none := by
  refine ⟨_, _, rfl, rfl, ?_, ?_⟩ <;> decide

/-- Claim C5 (amended): for a vote on a delivered block with no self_qc (below
the quorum threshold), on_receive_vote logs a warning but proceeds: it creates
a fresh quorum certificate for the block, inserts the voter into blk.voted and
accumulates the partial certificate in the new self_qc. -/
theorem vote_no_self_qc_creates (s : CoreState) (voter : ReplicaID) (bh : Hash)
    (cert : Nat) (blk : Block)
    (hf : findBlk s.blocks bh = some blk) (hd : blk.delivered = true)
    (hq : blk.self_qc = none)
    (hlt : blk.voted.length < s.nmajority) (hmem : voter ∉ blk.voted)
    (hth : blk.voted.length + 1 ≠ s.nmajority) :
    on_receive_vote s voter bh cert =
      .ok (insertVoteState s bh blk voter
            (add_part (create_quorum_cert bh) voter cert), []) := by
  have h := on_receive_vote_sub s voter bh cert blk hf hd hlt hmem hth
  rw [hq] at h
  simpa using h

/-- Witness for vote_no_self_qc_creates at a concrete state. -/
theorem vote_no_self_qc_creates_witness :
    on_receive_vote exC5 2 7 9 =
      .ok (insertVoteState exC5 7 nqBlk 2 (add_part (create_quorum_cert 7) 2 9), []) :=
  vote_no_self_qc_creates exC5 2 7 9 nqBlk rfl rfl rfl (by decide) (by decide) (by decide)

/-- Claim C7 (code bug): committing b1 (two commands) emits one Finality per
command in order, but both carry cmd_idx 0: the source initializes idx and
never increments it, so the second command's Finality does not carry its
position 1. -/
theorem commit_finality_idx_zero :
    ∃ s', update exC7 3 = .ok (s',
      [Event.hqcUpdate,
       Event.decide { rid := 9, decision := 1, cmd_idx := 0, cmd_height := 1,
                      cmd_hash := 10, blk_hash := 1 },
       Event.decide { rid := 9, decision := 1, cmd_idx := 0, cmd_height := 1,
                      cmd_hash := 11, blk_hash := 1 }]) := ⟨_, rfl⟩

/-- Claim C8 (counterexample): in a 4-replica setup the derivation
nfaulty = peers.size()/2, nmajority = 2*nfaulty+1 does NOT yield nmajority = 4. -/
theorem nmajority_four_replicas_cex :
    on_init_nmajority (start_nfaulty [0, 1, 2, 3] 0) ≠ 4 := by decide

/-- Claim C8 (amended): with 4 registered replicas, one of which is local
(peers.size() = 3), nfaulty = 3/2 = 1 and nmajority = 2*1+1 = 3 (the textbook
2f+1), not 4. -/
theorem nmajority_four_replicas (a b c d : Nat)
    (hb : b ≠ a) (hc : c ≠ a) (hd : d ≠ a) :
    start_nfaulty [a, b, c, d] a = 1 ∧
    on_init_nmajority (start_nfaulty [a, b, c, d] a) = 3 := by
  have hp : start_peers [a, b, c, d] a = [b, c, d] := by
    simp [start_peers, hb, hc, hd]
  constructor <;> simp [start_nfaulty, on_init_nmajority, hp]

/-- Witness for nmajority_four_replicas at concrete addresses. -/
theorem nmajority_four_replicas_witness :
    start_nfaulty [0, 1, 2, 3] 0 = 1 ∧
    on_init_nmajority (start_nfaulty [0, 1, 2, 3] 0) = 3 :=
  nmajority_four_replicas 0 1 2 3 (by decide) (by decide) (by decide)

/-- Claim C9 (counterexample): propose_handler and vote_handler do NOT drop
messages from a null peer: on a null peer they still parse, schedule delivery
and forward into the consensus core. -/
theorem null_peer_cex :
    HAct.core ∈ propose_handler true (some 1) ∧
    HAct.core ∈ vote_handler true 1 := by
  constructor <;> decide

/-- Claim C9 (amended): the status, notify, blame, blame-notify and new-view
handlers drop null-peer messages before parsing; propose_handler and
vote_handler perform no null-peer check at all, behaving identically whether
or not the peer is null. -/
theorem null_peer_handling :
    (∀ h, status_handler true h = [] ∧ notify_handler true h = [] ∧
          blamenotify_handler true h = [] ∧ new_view_handler true h = []) ∧
    blame_handler true = [] ∧
    (∀ pn ob, propose_handler pn ob = propose_handler false ob) ∧
    (∀ pn h, vote_handler pn h = vote_handler false h) :=
  ⟨fun _ => ⟨rfl, rfl, rfl, rfl⟩, rfl, fun _ _ => rfl, fun _ _ => rfl⟩

/-- Claim C1: in update(nblk), with blk = nblk.qc_ref carrying its own qc_ref
and primary parent p = blk.parents[0], neither blk nor p decided: if
p ≠ blk.qc_ref nothing is committed (decisions and bexec unchanged); if
p = blk.qc_ref and the primary-parent walk from p reaches bexec, every block
on the walk is marked committed, the commit queue is replayed oldest-first,
and bexec is advanced to p. -/
theorem update_three_chain_commit
    (s : CoreState) (nh blkh blkqc ph : Hash) (pt : List Hash)
    (nblk blk p hqb : Block) (nq : QCert)
    (h1 : findBlk s.blocks nh = some nblk)
    (h2 : nblk.qc_ref = some blkh)
    (h3 : nblk.qc = some nq)
    (h4 : findBlk s.blocks s.hqc_blk = some hqb)
    (h5 : findBlk s.blocks blkh = some blk)
    (h6 : blk.qc_ref = some blkqc)
    (h7 : blk.decision = false)
    (h8 : blk.parent_hashes = ph :: pt)
    (h9 : findBlk s.blocks ph = some p)
    (h10 : p.decision = false) :
    (ph ≠ blkqc → ∃ s' evs, update s nh = .ok (s', evs) ∧
       s'.blocks = s.blocks ∧ s'.bexec = s.bexec) ∧
    (∀ bx queue, ph = blkqc →
       findBlk s.blocks s.bexec = some bx →
       chainWalk s.blocks bx.height (p.height + 1) ph = .ok (queue, s.bexec) →
       ∃ s' evs evsA, update s nh = .ok (s', evs) ∧
         s'.bexec = ph ∧
         (∀ h ∈ queue, ∃ b, findBlk s'.blocks h = some b ∧ b.decision = true) ∧
         (evsA = [] ∨ evsA = [Event.hqcUpdate]) ∧
         evs = evsA ++ queue.reverse.flatMap (finalitiesOf s.blocks s.rid)) := by
  obtain ⟨s1, evs1, hu⟩ := update_hqc_ok_exists s blkh nq blk hqb h5 h4
  obtain ⟨hbl, hbe, hvh, hnm, hng, hrid, hevs1, -⟩ :=
    update_hqc_ok_inv s blkh (some nq) s1 evs1 hu
  constructor
  · intro hne
    refine ⟨s1, evs1, ?_, hbl, hbe⟩
    unfold update
    simp only [h1, h2, h3, hu, hbl, h5, h6, h8, h9]
    simp [h7, h10, hne]
  · intro bx queue hcom hbx hw
    subst hcom
    have hall : ∀ h ∈ queue.reverse, ∃ b, findBlk s1.blocks h = some b := by
      intro h hm
      rw [hbl]
      exact chainWalk_mem s.blocks bx.height (p.height + 1) ph queue s.bexec hw h
        (List.mem_reverse.mp hm)
    obtain ⟨s2, evs2, hca, hevs2, hdec⟩ := commitAll_ok_exists queue.reverse s1 hall
    refine ⟨{ s2 with bexec := ph }, evs1 ++ evs2, evs1, ?_, rfl, ?_, hevs1, ?_⟩
    · unfold update
      simp only [h1, h2, h3, hu, hbl, h5, h6, h8, h9, hbe, hbx, hw, hca]
      simp [h7, h10]
    · intro h hm
      exact hdec h (List.mem_reverse.mpr hm)
    · rw [hevs2, hbl, hrid]

/-- Witness for update_three_chain_commit: delivering b3 in the concrete
three-chain state commits b1 and advances bexec to it. -/
theorem update_three_chain_commit_witness :
    ∃ s' evs evsA, update exC7 3 = .ok (s', evs) ∧
      s'.bexec = 1 ∧
      (∀ h ∈ [1], ∃ b, findBlk s'.blocks h = some b ∧ b.decision = true) ∧
      (evsA = [] ∨ evsA = [Event.hqcUpdate]) ∧
      evs = evsA ++ ([1] : List Hash).reverse.flatMap (finalitiesOf exC7.blocks exC7.rid) := by
  have H := update_three_chain_commit exC7 3 2 1 1 [] b3C b2C b1C gBlk
    { obj_hash := 2, parts := [], computed := true }
    rfl rfl rfl rfl rfl rfl rfl rfl rfl rfl
  exact H.2 gBlk [1] rfl rfl rfl

/-- Claim C2: for a delivered proposal block (with neg_vote false, as the
constructor sets it and nothing in the source ever changes it),
on_receive_proposal emits a Vote to the proposer iff blk.height > vheight and
the ancestor of blk at the (post-update) hqc block's height, obtained by
walking primary parents, is the hqc block; whenever both conditions hold,
vheight is set to blk.height. -/
theorem on_receive_proposal_vote_iff
    (s s1 : CoreState) (proposer : ReplicaID) (bnewh : Hash) (bnew prefB : Block)
    (evs1 : List Event) (q : List Hash) (last : Hash)
    (hf : findBlk s.blocks bnewh = some bnew)
    (hd : bnew.delivered = true)
    (hneg : s.neg_vote = false)
    (hu : update s bnewh = .ok (s1, evs1))
    (hp : findBlk s1.blocks s1.hqc_blk = some prefB)
    (hw : chainWalk s1.blocks prefB.height (bnew.height + 1) bnewh = .ok (q, last)) :
    ∃ s' evs, on_receive_proposal s proposer bnewh = .ok (s', evs) ∧
      ((Event.vote proposer s.rid bnewh ∈ evs) ↔
        (s.vheight < bnew.height ∧ last = s1.hqc_blk)) ∧
      ((s.vheight < bnew.height ∧ last = s1.hqc_blk) → s'.vheight = bnew.height) := by
  obtain ⟨mvh, mrid, mnm, mng, -, mvote⟩ := update_ok_master s bnewh s1 evs1 hu
  have hpo := proposal_opinion_char s1 bnewh bnew prefB q last hp hw
  rw [mvh] at hpo
  have hng2 : s1.neg_vote = false := mng.trans hneg
  have hnq : Event.vote proposer s.rid bnewh ∉
      (match bnew.qc_ref with
       | some r => [Event.qcFinish r]
       | none => ([] : List Event)) := by
    cases bnew.qc_ref <;> simp
  have hnm : Event.vote proposer s.rid bnewh ∉
      evs1 ++ (match bnew.qc_ref with
               | some r => [Event.qcFinish r]
               | none => ([] : List Event)) ++ ([] : List Event) := by
    intro hm
    rcases List.mem_append.mp hm with hm' | hm2
    · rcases List.mem_append.mp hm' with hm1 | hmq
      · exact mvote _ _ _ hm1
      · exact hnq hmq
    · exact List.not_mem_nil _ hm2
  by_cases hv : s.vheight < bnew.height
  · by_cases hl : last = s1.hqc_blk
    · rw [if_pos hv, if_pos hl] at hpo
      have hchar := on_receive_proposal_ok_char s proposer bnewh bnew s1
        { s1 with vheight := bnew.height } evs1 true hf hd hu hpo
      have hcond : (true = true ∧
          ({ s1 with vheight := bnew.height } : CoreState).neg_vote = false) :=
        ⟨rfl, hng2⟩
      rw [if_pos hcond] at hchar
      refine ⟨_, _, hchar, ?_, fun _ => rfl⟩
      constructor
      · intro _
        exact ⟨hv, hl⟩
      · intro _
        rw [← mrid]
        exact List.mem_append.mpr (Or.inr (List.mem_singleton.mpr rfl))
    · rw [if_pos hv, if_neg hl] at hpo
      have hchar := on_receive_proposal_ok_char s proposer bnewh bnew s1 s1
        evs1 false hf hd hu hpo
      have hcond : ¬(false = true ∧ (s1 : CoreState).neg_vote = false) :=
        fun hc => Bool.noConfusion hc.1
      rw [if_neg hcond] at hchar
      refine ⟨s1, _, hchar, ?_, fun hc => absurd hc.2 hl⟩
      constructor
      · intro hm
        exact absurd hm hnm
      · intro hc
        exact absurd hc.2 hl
  · rw [if_neg hv] at hpo
    have hchar := on_receive_proposal_ok_char s proposer bnewh bnew s1 s1
      evs1 false hf hd hu hpo
    have hcond : ¬(false = true ∧ (s1 : CoreState).neg_vote = false) :=
      fun hc => Bool.noConfusion hc.1
    rw [if_neg hcond] at hchar
    refine ⟨s1, _, hchar, ?_, fun hc => absurd hc.1 hv⟩
    constructor
    · intro hm
      exact absurd hm hnm
    · intro hc
      exact absurd hc.1 hv

/-- Witness for on_receive_proposal_vote_iff: a height-1 proposal extending
the genesis hqc branch at vheight 0 earns a vote. -/
theorem on_receive_proposal_vote_iff_witness :
    ∃ s' evs, on_receive_proposal exC2 3 1 = .ok (s', evs) ∧
      ((Event.vote 3 exC2.rid 1 ∈ evs) ↔
        (exC2.vheight < pBlk.height ∧ 0 = exC2.hqc_blk)) ∧
      ((exC2.vheight < pBlk.height ∧ 0 = exC2.hqc_blk) →
        s'.vheight = pBlk.height) :=
  on_receive_proposal_vote_iff exC2 exC2 3 1 pBlk gBlk [] [1] 0
    rfl rfl rfl rfl rfl rfl

/-- Claim C4: on_receive_vote on a delivered block: if the quorum is already
full the vote is ignored and the state unchanged; a duplicate voter is dropped
without modifying self_qc; otherwise the voter is inserted and the partial
certificate added to self_qc; and exactly when |voted| reaches nmajority,
self_qc is finalized (compute), qc_finish fires and update_hqc is called. -/
theorem on_receive_vote_cases
    (s : CoreState) (voter : ReplicaID) (bh : Hash) (cert : Nat) (blk : Block)
    (hf : findBlk s.blocks bh = some blk)
    (hd : blk.delivered = true) :
    (s.nmajority ≤ blk.voted.length →
       on_receive_vote s voter bh cert = .ok (s, [])) ∧
    (blk.voted.length < s.nmajority → voter ∈ blk.voted →
       on_receive_vote s voter bh cert = .ok (s, [])) ∧
    (blk.voted.length < s.nmajority → voter ∉ blk.voted →
       blk.voted.length + 1 ≠ s.nmajority →
       on_receive_vote s voter bh cert =
         .ok (insertVoteState s bh blk voter
               (add_part (blk.self_qc.getD (create_quorum_cert bh)) voter cert), [])) ∧
    (blk.voted.length < s.nmajority → voter ∉ blk.voted →
       blk.voted.length + 1 = s.nmajority →
       on_receive_vote s voter bh cert =
         Except.map (fun r => (r.1, Event.qcFinish bh :: r.2))
           (update_hqc
             (insertVoteState s bh blk voter
               (computeQC (add_part (blk.self_qc.getD (create_quorum_cert bh))
                 voter cert)))
             bh
             (some (computeQC (add_part (blk.self_qc.getD (create_quorum_cert bh))
               voter cert))))) :=
  ⟨fun hge => on_receive_vote_full s voter bh cert blk hf hd hge,
   fun hlt hmem => on_receive_vote_dup s voter bh cert blk hf hd hlt hmem,
   fun hlt hmem hth => on_receive_vote_sub s voter bh cert blk hf hd hlt hmem hth,
   fun hlt hmem hth => on_receive_vote_thr s voter bh cert blk hf hd hlt hmem hth⟩

/-- Witness for on_receive_vote_cases: a duplicate vote is dropped, and the
third of three votes finalizes the QC and fires qc_finish. -/
theorem on_receive_vote_cases_witness :
    on_receive_vote exC4 1 7 9 = .ok (exC4, []) ∧
    ∃ s', on_receive_vote exC4 3 7 8 = .ok (s', [Event.qcFinish 7]) := by
  have H1 := on_receive_vote_cases exC4 1 7 9 vBlk rfl rfl
  have H2 := on_receive_vote_cases exC4 3 7 8 vBlk rfl rfl
  constructor
  · exact H1.2.1 (by decide) (by decide)
  · exact ⟨_, (H2.2.2.2 (by decide) (by decide) (by decide)).trans rfl⟩

/-- Claim C6: update_hqc replaces hqc with (blk, clone(qc)) and fires the
hqc_update observer if and only if the new block is strictly higher than the
current hqc block, leaving hqc unchanged otherwise; consequently hqcHeight is
non-decreasing across every embedded core operation. -/
theorem update_hqc_iff_and_monotone :
    (∀ (s : CoreState) (nh : Hash) (q : QCert) (nblk hb : Block),
       findBlk s.blocks nh = some nblk →
       findBlk s.blocks s.hqc_blk = some hb →
       update_hqc s nh (some q) =
         (if hb.height < nblk.height
          then .ok ({ s with hqc_blk := nh, hqc_qc := q }, [Event.hqcUpdate])
          else .ok (s, []))) ∧
    (∀ s s', CoreStep s s' → hqcHeight s ≤ hqcHeight s') := by
  constructor
  · intro s nh q nblk hb h1 h2
    unfold update_hqc
    simp only [h1, h2]
  · intro s s' hstep
    cases hstep with
    | hqc a b c d h => exact (update_hqc_ok_inv _ _ _ _ _ h).2.2.2.2.2.2.2
    | upd a b c h => exact (update_ok_master _ _ _ _ h).2.2.2.2.1
    | recvProp a b c d h => exact on_receive_proposal_mono _ _ _ _ _ h
    | recvVote a b c d e h => exact on_receive_vote_mono _ _ _ _ _ _ h

/-- Witness for update_hqc_iff_and_monotone: a QC over a block no higher than
the current hqc leaves the state unchanged, and a concrete update step (which
raises hqc to height 2) does not decrease hqcHeight. -/
theorem update_hqc_iff_and_monotone_witness :
    update_hqc exC2 0 (some gQC) = .ok (exC2, []) ∧
    ∃ s' evs, update exC7 3 = .ok (s', evs) ∧ hqcHeight exC7 ≤ hqcHeight s' := by
  constructor
  · have h := update_hqc_iff_and_monotone.1 exC2 0 gQC gBlk gBlk rfl rfl
    rw [if_neg (by decide : ¬ gBlk.height < gBlk.height)] at h
    exact h
  · obtain ⟨s', evs, hupd⟩ : ∃ s' evs, update exC7 3 = .ok (s', evs) := ⟨_, _, rfl⟩
    exact ⟨s', evs, hupd,
      update_hqc_iff_and_monotone.2 exC7 s' (CoreStep.upd exC7 3 s' evs hupd)⟩

/-- Claim C10: once a block is fetched, async_deliver_blk schedules signature
verification for it if and only if it is not the genesis block; the genesis
block's delivery proceeds with no verification scheduled. -/
theorem deliver_verifies_iff_not_genesis (genesis blk_hash : Hash) (blk : Block) :
    DTask.verify ∈ async_deliver_subtasks genesis blk_hash blk ↔
      blk_hash ≠ genesis := by
  unfold async_deliver_subtasks
  cases blk.qc <;> by_cases hg : blk_hash = genesis <;> simp [hg]

end HotStuff
